import Mathlib

/-!
Shallow embedding of the odds-normalization logic of
`src/components/prop-comparison/game-selector.tsx` (the `GameSelector` event
selector and the `PropComparisonTable` component: the fetch-time merging of
standard and alternate markets, the `playerProps` transform, the per-line
best-price computation of `renderTableView`, and the search/sort pipeline of
`filteredProps`).

Modelling conventions: JavaScript numbers used as line values (`point`,
`commence_time`) are rationals / integers; American odds (`price`) are
integers; a possibly-absent JSON string field is an `Option String`
(`none` = the field is absent). JavaScript `Array.prototype.sort` (stable
since ES2019) is `List.mergeSort`. The market keys produced by
`getMarketApiKey` (a collaborator outside `src/`) are passed in as plain
`String` parameters.
-/

/-- An `Outcome` of a market: `name` is the side (Over/Under), `point` the
line, `price` the American odds, `description` the player name (`none` when
the JSON field is absent). -/
structure Outcome where
  name : String
  point : ℚ
  price : ℤ
  description : Option String
deriving DecidableEq

/-- A bookmaker `Market`: a key and its priced outcomes. -/
structure Market where
  key : String
  outcomes : List Outcome
deriving DecidableEq

/-- A `Bookmaker` entry of the raw payload. -/
structure Bookmaker where
  key : String
  title : String
  last_update : String
  markets : List Market
deriving DecidableEq

/-- The root `GameOdds` payload. -/
structure GameOdds where
  home_team : String
  away_team : String
  bookmakers : List Bookmaker
deriving DecidableEq

/-- A bookmaker entry attached to a derived `PlayerProp`. -/
structure PropBookmaker where
  key : String
  title : String
  last_update : String
  markets : List Market
deriving DecidableEq

/-- A derived per-player prop row. -/
structure PlayerProp where
  player : String
  team : String
  statType : String
  line : ℚ
  bookmakers : List PropBookmaker
deriving DecidableEq

/-- An upcoming `Event` of the event selector; `commence_time` is the epoch
value `new Date(commence_time).getTime()` compared by the source. -/
structure Event where
  id : String
  home_team : String
  away_team : String
  commence_time : ℤ
deriving DecidableEq

/-- Here `dropLead? pat s` is `some rest` when `s = pat ++ rest`, `none` otherwise. -/
def dropLead? : List Char → List Char → Option (List Char)
  | [], s => some s
  | _ :: _, [] => none
  | a :: as, b :: bs => if a = b then dropLead? as bs else none

/-- JavaScript `String.prototype.replace` with a plain string pattern:
only the first occurrence is replaced. -/
def replaceFirstChars (pat repl : List Char) : List Char → List Char
  | [] =>
    match dropLead? pat [] with
    | some rest => repl ++ rest
    | none => []
  | c :: t =>
    match dropLead? pat (c :: t) with
    | some rest => repl ++ rest
    | none => c :: replaceFirstChars pat repl t

/-- String wrapper for `replaceFirstChars`. -/
def jsReplaceFirst (s pat repl : String) : String :=
  ⟨replaceFirstChars pat.data repl.data s.data⟩

/-- JavaScript `String.prototype.includes`: substring containment. -/
def hasSub (pat : List Char) : List Char → Bool
  | [] => (dropLead? pat []).isSome
  | c :: t => (dropLead? pat (c :: t)).isSome || hasSub pat t

/-- String wrapper for `hasSub`. -/
def jsIncludes (s pat : String) : Bool := hasSub pat.data s.data

/-- JavaScript `String.prototype.toLowerCase` (ASCII model). -/
def jsToLower (s : String) : String := ⟨s.data.map Char.toLower⟩

/-- The duplicate test of the source (`game-selector.tsx` lines 464-468 and
612-616): two outcomes with equal `name`, `point` and `description`. -/
def sameTriple (a b : Outcome) : Bool :=
  a.name == b.name && a.point == b.point && a.description == b.description

/-- Stable insertion of an outcome into a point-sorted list: the inserted
outcome goes after every existing outcome with a strictly smaller point and
before the first one with a point at least as large. -/
def insertByPoint (o : Outcome) : List Outcome → List Outcome
  | [] => [o]
  | x :: xs =>
    if o.point ≤ x.point then o :: x :: xs else x :: insertByPoint o xs

/-- The point-ascending sort `outcomes.sort((a, b) => a.point - b.point)`
applied by the source (lines 475 and 626); JavaScript sort is stable, and a
stable sort by a total preorder is unique, so stable insertion sort is the
same function. -/
def sortByPoint (l : List Outcome) : List Outcome := l.foldr insertByPoint []

/-- Appends `o` unless an outcome with the same `(name, point, description)`
is already present (the `isDuplicate` check of the source). -/
def dedupInsert (acc : List Outcome) (o : Outcome) : List Outcome :=
  if acc.any (fun x => sameTriple x o) then acc else acc ++ [o]

/-- Fetch-time combination of a standard outcome list with an alternate one
(`game-selector.tsx` lines 461-475): every alternate outcome is appended
unless its triple already appears, then the whole list is sorted by `point`. -/
def mergeOutcomes (std alt : List Outcome) : List Outcome :=
  sortByPoint (alt.foldl dedupInsert std)

/-- The filter `book.markets.filter(m => !m.key.includes('alternate'))` (line 422). -/
def stdOf (b : Bookmaker) : List Market :=
  b.markets.filter (fun m => !(jsIncludes m.key "alternate"))

/-- The filter `book.markets.filter(m => m.key.includes('alternate'))` (line 423). -/
def altOf (b : Bookmaker) : List Market :=
  b.markets.filter (fun m => jsIncludes m.key "alternate")

/-- The rewrite `key.replace('_alternate', '')` used on lines 447 and 457. -/
def stripAlt (k : String) : String := jsReplaceFirst k "_alternate" ""

/-- Merges the matching alternate market (if any) into one standard market
(`game-selector.tsx` lines 455-487). -/
def mergeStandardMarket (alts : List Market) (s : Market) : Market :=
  match alts.find? (fun m => stripAlt m.key == s.key) with
  | none => s
  | some a => { s with outcomes := mergeOutcomes s.outcomes a.outcomes }

/-- Per-bookmaker combination step of `fetchPlayerProps`
(`game-selector.tsx` lines 421-489): when the bookmaker has no standard
market but some alternate markets, the alternates are promoted to standard
keys; otherwise each standard market absorbs its matching alternate. -/
def combineBookmaker (b : Bookmaker) : Bookmaker :=
  let std := stdOf b
  let alt := altOf b
  if std.isEmpty && !alt.isEmpty then
    { b with markets := alt.map (fun m => { m with key := stripAlt m.key }) }
  else
    { b with markets := std.map (mergeStandardMarket alt) }

/-- The whole-payload combination (`data = {...responseData, bookmakers: ...}`). -/
def combineGameOdds (g : GameOdds) : GameOdds :=
  { g with bookmakers := g.bookmakers.map combineBookmaker }

/-- The falsy test `!outcome.description` of line 605: absent or empty. -/
def missingDesc (o : Outcome) : Bool :=
  match o.description with
  | none => true
  | some s => s == ""

/-- The insertion-ordered `Map<string, Outcome[]>` of the transform,
modelled as an association list. -/
abbrev PlayerMap := List (String × List Outcome)

/-- The lookup `playerOutcomes.get(d) || []`. -/
def mapGet (m : PlayerMap) (k : String) : List Outcome :=
  match m.find? (fun p => p.fst == k) with
  | none => []
  | some p => p.snd

/-- The update `playerOutcomes.set(d, v)`: updates in place when the key exists,
appends otherwise (JavaScript `Map` preserves insertion order). -/
def mapSet (m : PlayerMap) (k : String) (v : List Outcome) : PlayerMap :=
  if m.any (fun p => p.fst == k) then
    m.map (fun p => if p.fst == k then (k, v) else p)
  else m ++ [(k, v)]

/-- One step of the grouping loop (`game-selector.tsx` lines 604-621):
outcomes lacking a description are dropped, the rest are appended to the
entry of their player unless the same triple is already there. -/
def addOutcome (m : PlayerMap) (o : Outcome) : PlayerMap :=
  if missingDesc o then m
  else
    let d := o.description.getD ""
    mapSet m d (dedupInsert (mapGet m d) o)

/-- The grouping loop of lines 602-621. -/
def groupByPlayer (outs : List Outcome) : PlayerMap := outs.foldl addOutcome []

/-- The JavaScript expression `overOutcome?.point || 0` of line 646. -/
def jsPointOrZero (x : Option ℚ) : ℚ :=
  match x with
  | none => 0
  | some v => if v = 0 then 0 else v

/-- The bookmaker entry pushed onto a prop (lines 632-639 and 647-655). -/
def mkEntry (standardKey : String) (b : Bookmaker) (outcomes : List Outcome) :
    PropBookmaker :=
  { key := b.key, title := b.title, last_update := b.last_update,
    markets := [{ key := standardKey, outcomes := outcomes }] }

/-- The step `props.find(p => p.player === player)` followed by a `push` onto its
bookmaker list: only the first prop with that player is extended. -/
def pushToFirst (player : String) (entry : PropBookmaker) :
    List PlayerProp → List PlayerProp
  | [] => []
  | p :: rest =>
    if p.player == player then
      { p with bookmakers := p.bookmakers ++ [entry] } :: rest
    else p :: pushToFirst player entry rest

/-- The `Create prop objects` loop body (`game-selector.tsx` lines 624-658):
sorts the player outcomes by point, then either extends the existing prop
of that player or appends a fresh one. -/
def addProp (standardKey statType homeTeam : String) (b : Bookmaker)
    (props : List PlayerProp) (player : String) (raw : List Outcome) :
    List PlayerProp :=
  let outcomes := sortByPoint raw
  let entry := mkEntry standardKey b outcomes
  if props.any (fun p => p.player == player) then
    pushToFirst player entry props
  else
    let overOutcome := outcomes.find? (fun o => o.name == "Over")
    props ++ [{ player := player, team := homeTeam, statType := statType,
                line := jsPointOrZero (overOutcome.map Outcome.point),
                bookmakers := [entry] }]

/-- The outcomes of the selected standard market followed by those of the
selected alternate market of one bookmaker (lines 571-583). -/
def bookOutcomes (standardKey alternateKey : String) (b : Bookmaker) :
    List Outcome :=
  (match b.markets.find? (fun m => m.key == standardKey) with
   | none => []
   | some m => m.outcomes) ++
  (match b.markets.find? (fun m => m.key == alternateKey) with
   | none => []
   | some m => m.outcomes)

/-- The per-bookmaker body of the transform (lines 569-659), including the
two early returns (no market found / no outcomes found). -/
def processBookmaker (standardKey alternateKey statType homeTeam : String)
    (props : List PlayerProp) (b : Bookmaker) : List PlayerProp :=
  let stdM := b.markets.find? (fun m => m.key == standardKey)
  let altM := b.markets.find? (fun m => m.key == alternateKey)
  if stdM.isNone && altM.isNone then props
  else
    let allOutcomes := bookOutcomes standardKey alternateKey b
    if allOutcomes.isEmpty then props
    else
      (groupByPlayer allOutcomes).foldl
        (fun acc pr => addProp standardKey statType homeTeam b acc pr.fst pr.snd)
        props

/-- The `playerProps` useMemo transform (`game-selector.tsx` lines 549-677),
with the two market keys (the result of `getMarketApiKey`, a collaborator
outside `src/`) passed as parameters. -/
def playerProps (standardKey alternateKey statType : String) (g : GameOdds) :
    List PlayerProp :=
  g.bookmakers.foldl
    (processBookmaker standardKey alternateKey statType g.home_team) []

/-- The per-bookmaker lookup of `renderTableView` (lines 1020-1027): first
market with the requested key, then first outcome with the requested side
and line. -/
def foundAtLine (marketKey side : String) (line : ℚ) (bk : PropBookmaker) :
    Option Outcome :=
  match bk.markets.find? (fun m => m.key == marketKey) with
  | none => none
  | some m => m.outcomes.find? (fun o => o.name == side && o.point == line)

/-- The per-line best price of `renderTableView` (lines 1014-1031): a
running `Math.max` over the bookmakers, starting from `-Infinity`
(modelled as `none`). -/
def bestPriceForLine (marketKey side : String) (prop : PlayerProp) (line : ℚ) :
    Option ℤ :=
  prop.bookmakers.foldl
    (fun best bk =>
      match foundAtLine marketKey side line bk with
      | none => best
      | some o =>
        match best with
        | none => some o.price
        | some bb => some (max bb o.price)) none

/-- Claim-side reference for C4: every price offered for the given side at
the given line, across the consulted market of each attached bookmaker. -/
def linePrices (marketKey side : String) (prop : PlayerProp) (line : ℚ) :
    List ℤ :=
  prop.bookmakers.foldr
    (fun bk acc =>
      (match bk.markets.find? (fun m => m.key == marketKey) with
       | none => []
       | some m =>
         (m.outcomes.filter (fun o => o.name == side && o.point == line)).map
           Outcome.price) ++ acc) []

/-- Claim-side maximum of a list of prices. -/
def listMax? : List ℤ → Option ℤ
  | [] => none
  | x :: xs =>
    match listMax? xs with
    | none => some x
    | some m => some (max x m)

/-- The value returned by `findBestOdds`. -/
structure BestOdds where
  bookmaker : String
  line : ℚ
  odds : ℤ
deriving DecidableEq

/-- Modelled from the spec: `findBestOdds` is imported from
`@/lib/odds-api`, which is not under `src/`. Spec section 4.2: for a given
player prop, market key and side, scan every bookmaker attached to the
prop, find the outcome matching that side, and keep the one with the
maximum `price` under a strict greater-than comparison (the first maximum
encountered wins), carrying along the bookmaker id and the `point`. -/
def findBestOdds (prop : PlayerProp) (marketKey side : String) :
    Option BestOdds :=
  prop.bookmakers.foldl
    (fun best bk =>
      match bk.markets.find? (fun m => m.key == marketKey) with
      | none => best
      | some m =>
        match m.outcomes.find? (fun o => o.name == side) with
        | none => best
        | some o =>
          match best with
          | none => some ⟨bk.key, o.point, o.price⟩
          | some bb =>
            if bb.odds < o.price then some ⟨bk.key, o.point, o.price⟩
            else best) none

/-- The JavaScript expression `bestOver?.odds || 0` of line 701. -/
def jsOddsOrZero (x : Option ℤ) : ℤ :=
  match x with
  | none => 0
  | some v => if v = 0 then 0 else v

/-- The sort key of the best-odds sort mode (lines 696-702). -/
def bestOverKey (marketKey : String) (p : PlayerProp) : ℤ :=
  jsOddsOrZero ((findBestOdds p marketKey "Over").map BestOdds.odds)

/-- The search predicate of `filteredProps` (lines 683-690): case-folded
substring match on the player name, or on the team name when it is truthy. -/
def matchesQuery (lowerQ : String) (p : PlayerProp) : Bool :=
  jsIncludes (jsToLower p.player) lowerQ ||
  (p.team != "" && jsIncludes (jsToLower p.team) lowerQ)

/-- The two sort modes of the component state. -/
inductive SortMode where
  | name
  | bestOdds
deriving DecidableEq

/-- The `filteredProps` useMemo (lines 680-706): filter by the search query
when it is nonempty, then sort by the active mode; `localeCompare` on the
player names is modelled as the codepoint order on strings. -/
def filteredProps (props : List PlayerProp) (searchQuery : String)
    (sortBy : SortMode) (marketKey : String) : List PlayerProp :=
  let filtered :=
    if searchQuery != "" then props.filter (matchesQuery (jsToLower searchQuery))
    else props
  match sortBy with
  | SortMode.name => filtered.mergeSort (fun a b => a.player ≤ b.player)
  | SortMode.bestOdds =>
      filtered.mergeSort
        (fun a b => bestOverKey marketKey b ≤ bestOverKey marketKey a)

/-- The event sort of `GameSelector` (lines 59-63). -/
def sortEvents (l : List Event) : List Event :=
  l.mergeSort (fun a b => a.commence_time ≤ b.commence_time)

/-- The auto-selection of lines 67-71: the first event of the sorted list. -/
def autoSelectedEvent (l : List Event) : Option Event := (sortEvents l).head?

/-- Claim-side identity of outcomes: equal `(name, point, description)`. -/
def SameTriple (a b : Outcome) : Prop :=
  a.name = b.name ∧ a.point = b.point ∧ a.description = b.description

/-- Claim-side invariant: no two outcomes of the list share their triple. -/
def TripleDistinct (l : List Outcome) : Prop :=
  l.Pairwise (fun a b => ¬ SameTriple a b)

/-- Claim-side: some outcome of the list shares its triple with `o`. -/
def TripleIn (o : Outcome) (l : List Outcome) : Prop :=
  ∃ x ∈ l, SameTriple o x

/-- Claim-side invariant: the list is sorted ascending by `point`. -/
def PSorted (l : List Outcome) : Prop :=
  l.Pairwise (fun a b => a.point ≤ b.point)

/-- Claim-side removal of the literal suffix `_alternate` (the operation
named by C6): strips the suffix when present, leaves the key unchanged
otherwise. -/
def stripAltSuffix (k : String) : String :=
  match dropLead? "_alternate".data.reverse k.data.reverse with
  | some rest => ⟨rest.reverse⟩
  | none => k

/-- Claim-side search predicate of C7: the query is a case-insensitive
substring of the player name or of the team name. -/
def QueryMatches (q : String) (p : PlayerProp) : Prop :=
  jsIncludes (jsToLower p.player) (jsToLower q) = true ∨
  jsIncludes (jsToLower p.team) (jsToLower q) = true

/-- Claim-side list of attributable player names of C3: every non-missing
`description` of the selected markets, across all bookmakers. -/
def attributableDescs (sk ak : String) (g : GameOdds) : List String :=
  (g.bookmakers.map (fun b =>
    (bookOutcomes sk ak b).filterMap
      (fun o => if missingDesc o then none else o.description))).flatten

/-! ### Helper lemmas: map keys and first-seen key insertion -/

/-- The keys of a `PlayerMap`, in insertion order. -/
def mapKeys (m : PlayerMap) : List String := m.map Prod.fst

/-- First-seen key insertion: appends the key unless it is already present. -/
def insKey (acc : List String) (d : String) : List String :=
  if d ∈ acc then acc else acc ++ [d]

/-- The player name a grouped outcome is attributed to, when any. -/
def descKey? (o : Outcome) : Option String :=
  if missingDesc o then none else some (o.description.getD "")

/-! ### Helper lemmas: the grouped outcome lists are triple-distinct -/

/-- Invariant: every value list of the map is triple-distinct. -/
def MapTD (m : PlayerMap) : Prop := ∀ pr ∈ m, TripleDistinct pr.snd

/-! ### Helper lemmas: players of the accumulated prop list -/

/-- The player names of a prop list, in order. -/
def playersOf (props : List PlayerProp) : List String :=
  props.map PlayerProp.player

/-! ### Helper lemmas: the master invariant of produced props -/

/-- Everything C1, C2 and C5 need of a produced prop: the team is the home
team, every attached market is triple-distinct and point-sorted, and the
line is the point of the first Over outcome of the first bookmaker entry
(or 0 when there is none). -/
def GoodProp (sk home : String) (p : PlayerProp) : Prop :=
  p.team = home ∧
  (∀ bk ∈ p.bookmakers, ∀ m ∈ bk.markets,
    TripleDistinct m.outcomes ∧ PSorted m.outcomes) ∧
  ∃ bk rest, p.bookmakers = bk :: rest ∧
    ∃ outs, bk.markets = [{ key := sk, outcomes := outs }] ∧
      p.line =
        jsPointOrZero ((outs.find? (fun o => o.name == "Over")).map Outcome.point)

/-! ### Decidability of the claim-side predicates -/

instance (a b : Outcome) : Decidable (SameTriple a b) := by
  unfold SameTriple
  infer_instance

instance (l : List Outcome) : Decidable (TripleDistinct l) := by
  unfold TripleDistinct
  infer_instance

instance (o : Outcome) (l : List Outcome) : Decidable (TripleIn o l) := by
  unfold TripleIn
  infer_instance

instance (l : List Outcome) : Decidable (PSorted l) := by
  unfold PSorted
  infer_instance

/-! ### Demonstration data for the witnesses -/

/-- A standard Over outcome used by the witnesses. -/
def demoOver : Outcome :=
  { name := "Over", point := 25, price := 120, description := some "Ann Smith" }

/-- A standard Under outcome used by the witnesses. -/
def demoUnder : Outcome :=
  { name := "Under", point := 25, price := -110, description := some "Ann Smith" }

/-- An alternate-line Over outcome used by the witnesses. -/
def demoAltOver : Outcome :=
  { name := "Over", point := 28, price := 200, description := some "Ann Smith" }

/-- A standard outcome list used by the witnesses. -/
def demoStd : List Outcome := [demoOver, demoUnder]

/-- An alternate outcome list used by the witnesses. -/
def demoAlt : List Outcome := [demoAltOver, demoOver]

/-- A bookmaker used by the witnesses. -/
def demoBook : Bookmaker :=
  { key := "dk", title := "DraftKings", last_update := "2025-01-01",
    markets := [{ key := "pts", outcomes := demoStd },
                { key := "pts_alternate", outcomes := demoAlt }] }

/-- A payload used by the witnesses. -/
def demoGame : GameOdds :=
  { home_team := "HOME", away_team := "AWAY", bookmakers := [demoBook] }

/-! ### Helper lemmas: the per-line maximum price (C4) -/

/-- Semantics of the `-Infinity`-seeded running maximum: combination of two
optional maxima. -/
def combineOpt : Option ℤ → Option ℤ → Option ℤ
  | none, y => y
  | some a, none => some a
  | some a, some b => some (max a b)

/-- The prices one bookmaker offers for the given side at the given line. -/
def bkLinePrices (marketKey side : String) (line : ℚ) (bk : PropBookmaker) :
    List ℤ :=
  match bk.markets.find? (fun m => m.key == marketKey) with
  | none => []
  | some m =>
    (m.outcomes.filter (fun o => o.name == side && o.point == line)).map
      Outcome.price

/-- Hypothesis of C4: within the consulted market of each bookmaker, all
outcomes of the given side at the given line carry the same price (true of
every normalizer output, whose outcome lists are triple-distinct with a
single player description). -/
def UniqueSidePrices (marketKey side : String) (line : ℚ) (prop : PlayerProp) :
    Prop :=
  ∀ bk ∈ prop.bookmakers,
    ∀ m ∈ (bk.markets.find? (fun mm => mm.key == marketKey)).toList,
      ∀ o1 ∈ m.outcomes, ∀ o2 ∈ m.outcomes,
        o1.name = side → o2.name = side → o1.point = line → o2.point = line →
          o1.price = o2.price

instance (marketKey side : String) (line : ℚ) (prop : PlayerProp) :
    Decidable (UniqueSidePrices marketKey side line prop) := by
  unfold UniqueSidePrices
  infer_instance

/-- A two-bookmaker prop used by the witnesses of C4 and C8. -/
def demoProp : PlayerProp :=
  { player := "Ann Smith", team := "HOME", statType := "Points", line := 25,
    bookmakers :=
      [{ key := "dk", title := "DraftKings", last_update := "t",
         markets := [{ key := "pts", outcomes := [demoOver, demoUnder] }] },
       { key := "fd", title := "FanDuel", last_update := "t",
         markets := [{ key := "pts",
                       outcomes := [{ name := "Over", point := 25,
                                      price := -110,
                                      description := some "Ann Smith" }] }] }] }

/-- A bookmaker whose only market key contains `_alternate` in the middle,
separating the code behaviour (first-occurrence replacement) from the
suffix-removal operation named by C6. -/
def oddKeyBook : Bookmaker :=
  { key := "bk", title := "B", last_update := "t",
    markets := [{ key := "x_alternate_y", outcomes := [] }] }

/-- The stray alternate market of the C10 witness. -/
def strayAlt : Market := { key := "rebs_alternate", outcomes := [demoAltOver] }

/-- The bookmaker of the C10 witness: one standard market and one alternate
market whose stripped key matches no standard key. -/
def unmatchedBook : Bookmaker :=
  { key := "bk", title := "B", last_update := "t",
    markets := [{ key := "pts", outcomes := [demoOver] }, strayAlt] }

/-- An event used by the C9 witness. -/
def demoEventA : Event :=
  { id := "e1", home_team := "H1", away_team := "A1", commence_time := 100 }

/-- The single prop produced by the normalizer on `demoGame`, used by the
C5 witness. -/
def demoResultProp : PlayerProp :=
  { player := "Ann Smith", team := "HOME", statType := "Points", line := 25,
    bookmakers :=
      [{ key := "dk", title := "DraftKings", last_update := "2025-01-01",
         markets := [{ key := "pts",
                       outcomes := [demoOver, demoUnder, demoAltOver] }] }] }

/-- An earlier event used by the C9 witness. -/
def demoEventB : Event :=
  { id := "e2", home_team := "H2", away_team := "A2", commence_time := 50 }

/-! ### Helper lemmas: the triple identity and `dedupInsert` -/

theorem sameTriple_iff (a b : Outcome) : sameTriple a b = true ↔ SameTriple a b := by
  simp [sameTriple, SameTriple, and_assoc]

theorem SameTriple.refl (a : Outcome) : SameTriple a a := ⟨rfl, rfl, rfl⟩

theorem SameTriple.symm {a b : Outcome} (h : SameTriple a b) : SameTriple b a :=
  ⟨h.1.symm, h.2.1.symm, h.2.2.symm⟩

theorem SameTriple.trans {a b c : Outcome} (h : SameTriple a b)
    (h2 : SameTriple b c) : SameTriple a c :=
  ⟨h.1.trans h2.1, h.2.1.trans h2.2.1, h.2.2.trans h2.2.2⟩

theorem mem_dedupInsert {acc : List Outcome} {o x : Outcome}
    (h : x ∈ dedupInsert acc o) : x ∈ acc ∨ x = o := by
  unfold dedupInsert at h
  split at h
  · exact Or.inl h
  · rcases List.mem_append.1 h with h | h
    · exact Or.inl h
    · exact Or.inr (List.mem_singleton.1 h)

theorem subset_dedupInsert (acc : List Outcome) (o : Outcome) :
    acc ⊆ dedupInsert acc o := by
  unfold dedupInsert
  split
  · exact fun _ h => h
  · exact fun _ h => List.mem_append.2 (Or.inl h)

theorem tripleDistinct_dedupInsert {acc : List Outcome} (o : Outcome)
    (h : TripleDistinct acc) : TripleDistinct (dedupInsert acc o) := by
  unfold dedupInsert
  split
  · exact h
  · rename_i hnot
    refine List.pairwise_append.2 ⟨h, List.pairwise_singleton _ _, ?_⟩
    intro x hx y hy hst
    rw [List.mem_singleton] at hy
    exact absurd (List.any_eq_true.2 ⟨x, hx, (sameTriple_iff x o).2 (hy ▸ hst)⟩)
      (by simpa using hnot)

theorem tripleIn_dedupInsert (o' : Outcome) (acc : List Outcome) (o : Outcome) :
    TripleIn o' (dedupInsert acc o) ↔ TripleIn o' acc ∨ SameTriple o' o := by
  unfold dedupInsert
  split
  · rename_i hany
    rcases List.any_eq_true.1 hany with ⟨x, hx, hxo⟩
    constructor
    · exact Or.inl
    · rintro (h | h)
      · exact h
      · exact ⟨x, hx, h.trans ((sameTriple_iff x o).1 hxo).symm⟩
  · constructor
    · rintro ⟨x, hx, hox⟩
      rcases List.mem_append.1 hx with h | h
      · exact Or.inl ⟨x, h, hox⟩
      · rw [List.mem_singleton] at h
        subst h
        exact Or.inr hox
    · rintro (⟨x, hx, hox⟩ | h)
      · exact ⟨x, List.mem_append.2 (Or.inl hx), hox⟩
      · exact ⟨o, List.mem_append.2 (Or.inr (List.mem_singleton.2 rfl)), h⟩

theorem tripleDistinct_foldl {acc : List Outcome} (l : List Outcome)
    (h : TripleDistinct acc) : TripleDistinct (l.foldl dedupInsert acc) := by
  induction l generalizing acc with
  | nil => exact h
  | cons x xs ih => exact ih (tripleDistinct_dedupInsert x h)

theorem mem_foldl_dedupInsert {acc l : List Outcome} {x : Outcome}
    (h : x ∈ l.foldl dedupInsert acc) : x ∈ acc ∨ x ∈ l := by
  induction l generalizing acc with
  | nil => exact Or.inl h
  | cons y ys ih =>
    rcases ih h with h2 | h2
    · rcases mem_dedupInsert h2 with h3 | h3
      · exact Or.inl h3
      · exact Or.inr (by simp [h3])
    · exact Or.inr (List.mem_cons_of_mem _ h2)

theorem tripleIn_foldl_dedupInsert (o : Outcome) (l : List Outcome)
    (acc : List Outcome) :
    TripleIn o (l.foldl dedupInsert acc) ↔ TripleIn o acc ∨ TripleIn o l := by
  induction l generalizing acc with
  | nil => simp [TripleIn]
  | cons y ys ih =>
    simp only [List.foldl_cons]
    rw [ih, tripleIn_dedupInsert]
    constructor
    · rintro ((h | h) | h)
      · exact Or.inl h
      · exact Or.inr ⟨y, List.mem_cons_self _ _, h⟩
      · rcases h with ⟨x, hx, hox⟩
        exact Or.inr ⟨x, List.mem_cons_of_mem _ hx, hox⟩
    · rintro (h | ⟨x, hx, hox⟩)
      · exact Or.inl (Or.inl h)
      · rcases List.mem_cons.1 hx with h2 | h2
        · subst h2
          exact Or.inl (Or.inr hox)
        · exact Or.inr ⟨x, h2, hox⟩

/-! ### Helper lemmas: `sortByPoint` -/

theorem insertByPoint_perm (o : Outcome) (l : List Outcome) :
    List.Perm (insertByPoint o l) (o :: l) := by
  induction l with
  | nil => exact List.Perm.refl _
  | cons x xs ih =>
    unfold insertByPoint
    split
    · exact List.Perm.refl _
    · exact (List.Perm.cons x ih).trans (List.Perm.swap o x xs)

theorem sortByPoint_perm (l : List Outcome) : List.Perm (sortByPoint l) l := by
  unfold sortByPoint
  induction l with
  | nil => exact List.Perm.refl _
  | cons x xs ih =>
    simp only [List.foldr_cons]
    exact (insertByPoint_perm x _).trans (List.Perm.cons x ih)

theorem mem_sortByPoint {x : Outcome} {l : List Outcome} :
    x ∈ sortByPoint l ↔ x ∈ l := (sortByPoint_perm l).mem_iff

theorem psorted_insertByPoint (o : Outcome) {l : List Outcome}
    (h : PSorted l) : PSorted (insertByPoint o l) := by
  induction l with
  | nil => exact List.pairwise_singleton _ _
  | cons x xs ih =>
    unfold insertByPoint
    have hx := List.pairwise_cons.1 h
    split
    · rename_i hle
      refine List.pairwise_cons.2 ⟨?_, h⟩
      intro y hy
      rcases List.mem_cons.1 hy with rfl | hy2
      · exact hle
      · exact le_trans hle (hx.1 y hy2)
    · rename_i hgt
      refine List.pairwise_cons.2 ⟨?_, ih hx.2⟩
      intro y hy
      have hmem : y ∈ o :: xs := (insertByPoint_perm o xs).mem_iff.1 hy
      rcases List.mem_cons.1 hmem with rfl | hy2
      · exact le_of_not_le hgt
      · exact hx.1 y hy2

theorem psorted_sortByPoint (l : List Outcome) : PSorted (sortByPoint l) := by
  unfold sortByPoint
  induction l with
  | nil => exact List.Pairwise.nil
  | cons x xs ih =>
    simp only [List.foldr_cons]
    exact psorted_insertByPoint x ih

theorem tripleDistinct_sortByPoint {l : List Outcome}
    (h : TripleDistinct l) : TripleDistinct (sortByPoint l) :=
  ((sortByPoint_perm l).pairwise_iff
    (fun hab hst => hab hst.symm)).2 h

theorem tripleIn_sortByPoint (o : Outcome) (l : List Outcome) :
    TripleIn o (sortByPoint l) ↔ TripleIn o l := by
  unfold TripleIn
  constructor
  · rintro ⟨x, hx, hox⟩
    exact ⟨x, mem_sortByPoint.1 hx, hox⟩
  · rintro ⟨x, hx, hox⟩
    exact ⟨x, mem_sortByPoint.2 hx, hox⟩

/-! ### Helper lemmas: `mergeOutcomes` -/

theorem tripleDistinct_mergeOutcomes {std : List Outcome} (alt : List Outcome)
    (h : TripleDistinct std) : TripleDistinct (mergeOutcomes std alt) :=
  tripleDistinct_sortByPoint (tripleDistinct_foldl alt h)

theorem psorted_mergeOutcomes (std alt : List Outcome) :
    PSorted (mergeOutcomes std alt) := psorted_sortByPoint _

theorem mem_mergeOutcomes {std alt : List Outcome} {x : Outcome}
    (h : x ∈ mergeOutcomes std alt) : x ∈ std ∨ x ∈ alt :=
  mem_foldl_dedupInsert (mem_sortByPoint.1 h)

theorem tripleIn_mergeOutcomes (o : Outcome) (std alt : List Outcome) :
    TripleIn o (mergeOutcomes std alt) ↔ TripleIn o (std ++ alt) := by
  unfold mergeOutcomes
  rw [tripleIn_sortByPoint, tripleIn_foldl_dedupInsert]
  simp only [TripleIn, List.mem_append]
  constructor
  · rintro (⟨x, hx, hox⟩ | ⟨x, hx, hox⟩)
    · exact ⟨x, Or.inl hx, hox⟩
    · exact ⟨x, Or.inr hx, hox⟩
  · rintro ⟨x, hx | hx, hox⟩
    · exact Or.inl ⟨x, hx, hox⟩
    · exact Or.inr ⟨x, hx, hox⟩

theorem mem_foldl_insKey (d : String) (l acc : List String) :
    d ∈ l.foldl insKey acc ↔ d ∈ acc ∨ d ∈ l := by
  induction l generalizing acc with
  | nil => simp
  | cons x xs ih =>
    simp only [List.foldl_cons, ih, insKey]
    split
    · rename_i hx
      constructor
      · rintro (h | h)
        · exact Or.inl h
        · exact Or.inr (List.mem_cons_of_mem _ h)
      · rintro (h | h)
        · exact Or.inl h
        · rcases List.mem_cons.1 h with rfl | h2
          · exact Or.inl hx
          · exact Or.inr h2
    · simp only [List.mem_append, List.mem_singleton, List.mem_cons]
      tauto

theorem nodup_foldl_insKey (l : List String) {acc : List String}
    (h : acc.Nodup) : (l.foldl insKey acc).Nodup := by
  induction l generalizing acc with
  | nil => exact h
  | cons x xs ih =>
    refine ih ?_
    unfold insKey
    split
    · exact h
    · rename_i hx
      simpa [List.nodup_append] using ⟨h, hx⟩

theorem length_foldl_insKey (l : List String) :
    (l.foldl insKey []).length = l.toFinset.card := by
  have hnd : (l.foldl insKey []).Nodup := nodup_foldl_insKey l List.nodup_nil
  have hset : (l.foldl insKey []).toFinset = l.toFinset := by
    ext d
    simp [List.mem_toFinset, mem_foldl_insKey]
  rw [← List.toFinset_card_of_nodup hnd, hset]

theorem mapKeys_mapSet_of_mem {m : PlayerMap} {k : String}
    (v : List Outcome) (h : k ∈ mapKeys m) : mapKeys (mapSet m k v) = mapKeys m := by
  unfold mapSet
  have hany : m.any (fun p => p.fst == k) = true := by
    rcases List.mem_map.1 h with ⟨p, hp, hpk⟩
    exact List.any_eq_true.2 ⟨p, hp, by simp [hpk]⟩
  rw [if_pos hany]
  unfold mapKeys
  rw [List.map_map]
  refine List.map_congr_left ?_
  intro p _
  by_cases hpk : p.fst = k
  · simp [hpk]
  · simp [Function.comp, hpk]

theorem mapKeys_mapSet_of_not_mem {m : PlayerMap} {k : String}
    (v : List Outcome) (h : k ∉ mapKeys m) :
    mapKeys (mapSet m k v) = mapKeys m ++ [k] := by
  unfold mapSet
  have hany : m.any (fun p => p.fst == k) = false := by
    rw [Bool.eq_false_iff]
    intro hc
    rcases List.any_eq_true.1 hc with ⟨p, hp, hpk⟩
    exact h (List.mem_map.2 ⟨p, hp, by simpa using hpk⟩)
  rw [if_neg (by simp [hany])]
  unfold mapKeys
  simp

theorem mapKeys_addOutcome (m : PlayerMap) (o : Outcome) :
    mapKeys (addOutcome m o) =
      match descKey? o with
      | none => mapKeys m
      | some d => insKey (mapKeys m) d := by
  unfold addOutcome descKey?
  split
  · rename_i hmiss
    simp [hmiss]
  · rename_i hmiss
    show mapKeys
        (mapSet m (o.description.getD "")
          (dedupInsert (mapGet m (o.description.getD "")) o)) =
      insKey (mapKeys m) (o.description.getD "")
    unfold insKey
    by_cases hk : o.description.getD "" ∈ mapKeys m
    · rw [mapKeys_mapSet_of_mem _ hk, if_pos hk]
    · rw [mapKeys_mapSet_of_not_mem _ hk, if_neg hk]

theorem mapKeys_foldl_addOutcome (outs : List Outcome) (m : PlayerMap) :
    mapKeys (outs.foldl addOutcome m) =
      (outs.filterMap descKey?).foldl insKey (mapKeys m) := by
  induction outs generalizing m with
  | nil => simp
  | cons o os ih =>
    simp only [List.foldl_cons]
    rw [ih, mapKeys_addOutcome]
    cases h : descKey? o with
    | none => simp [List.filterMap_cons, h]
    | some d => simp [List.filterMap_cons, h]

theorem mapKeys_groupByPlayer (outs : List Outcome) :
    mapKeys (groupByPlayer outs) = (outs.filterMap descKey?).foldl insKey [] := by
  unfold groupByPlayer
  rw [mapKeys_foldl_addOutcome]
  rfl

theorem tripleDistinct_mapGet {m : PlayerMap} (k : String) (h : MapTD m) :
    TripleDistinct (mapGet m k) := by
  unfold mapGet
  cases hf : m.find? (fun p => p.fst == k) with
  | none => exact List.Pairwise.nil
  | some p => exact h p (List.mem_of_find?_eq_some hf)

theorem mem_mapSet {m : PlayerMap} {k : String} {v : List Outcome}
    {pr : String × List Outcome} (h : pr ∈ mapSet m k v) :
    pr = (k, v) ∨ pr ∈ m := by
  unfold mapSet at h
  split at h
  · rcases List.mem_map.1 h with ⟨q, hq, hqe⟩
    by_cases hqk : q.fst = k
    · simp only [hqk, beq_self_eq_true, if_pos] at hqe
      exact Or.inl hqe.symm
    · rw [if_neg (by simpa using hqk)] at hqe
      exact Or.inr (hqe ▸ hq)
  · rcases List.mem_append.1 h with h2 | h2
    · exact Or.inr h2
    · exact Or.inl (List.mem_singleton.1 h2)

theorem mapTD_addOutcome {m : PlayerMap} (o : Outcome) (h : MapTD m) :
    MapTD (addOutcome m o) := by
  unfold addOutcome
  split
  · exact h
  · intro pr hpr
    rcases mem_mapSet hpr with rfl | hpr2
    · exact tripleDistinct_dedupInsert o (tripleDistinct_mapGet _ h)
    · exact h pr hpr2

theorem mapTD_groupByPlayer (outs : List Outcome) : MapTD (groupByPlayer outs) := by
  unfold groupByPlayer
  have hgen : ∀ m : PlayerMap, MapTD m → MapTD (outs.foldl addOutcome m) := by
    induction outs with
    | nil => exact fun m h => h
    | cons o os ih => exact fun m h => ih _ (mapTD_addOutcome o h)
  exact hgen [] (by intro pr hpr; cases hpr)

theorem playersOf_pushToFirst (player : String) (entry : PropBookmaker)
    (props : List PlayerProp) :
    playersOf (pushToFirst player entry props) = playersOf props := by
  induction props with
  | nil => rfl
  | cons p ps ih =>
    unfold pushToFirst
    split
    · simp [playersOf]
    · simpa [playersOf] using ih

theorem any_player_iff (props : List PlayerProp) (d : String) :
    props.any (fun p => p.player == d) = true ↔ d ∈ playersOf props := by
  simp [playersOf, List.any_eq_true, List.mem_map]

theorem playersOf_addProp (sk st home : String) (b : Bookmaker)
    (props : List PlayerProp) (d : String) (raw : List Outcome) :
    playersOf (addProp sk st home b props d raw) = insKey (playersOf props) d := by
  simp only [addProp, insKey]
  by_cases h : d ∈ playersOf props
  · rw [if_pos ((any_player_iff props d).2 h), if_pos h]
    exact playersOf_pushToFirst _ _ _
  · rw [if_neg (fun hc => h ((any_player_iff props d).1 hc)), if_neg h]
    simp [playersOf]

theorem playersOf_foldl_addProp (sk st home : String) (b : Bookmaker)
    (m : PlayerMap) (props : List PlayerProp) :
    playersOf
        (m.foldl (fun acc pr => addProp sk st home b acc pr.fst pr.snd) props) =
      (mapKeys m).foldl insKey (playersOf props) := by
  induction m generalizing props with
  | nil => rfl
  | cons pr prs ih =>
    simp only [List.foldl_cons]
    rw [ih, playersOf_addProp]
    rfl

theorem bookOutcomes_eq_nil_of_none {sk ak : String} {b : Bookmaker}
    (h1 : b.markets.find? (fun m => m.key == sk) = none)
    (h2 : b.markets.find? (fun m => m.key == ak) = none) :
    bookOutcomes sk ak b = [] := by
  unfold bookOutcomes
  rw [h1, h2]
  rfl

theorem playersOf_processBookmaker (sk ak st home : String)
    (props : List PlayerProp) (b : Bookmaker) :
    playersOf (processBookmaker sk ak st home props b) =
      (mapKeys (groupByPlayer (bookOutcomes sk ak b))).foldl insKey
        (playersOf props) := by
  simp only [processBookmaker]
  split
  · rename_i hguard
    rw [Bool.and_eq_true, Option.isNone_iff_eq_none, Option.isNone_iff_eq_none]
      at hguard
    rw [bookOutcomes_eq_nil_of_none hguard.1 hguard.2]
    rfl
  · split
    · rename_i hempty
      rw [List.isEmpty_iff.1 hempty]
      rfl
    · exact playersOf_foldl_addProp sk st home b _ props

theorem playersOf_playerProps (sk ak st : String) (g : GameOdds) :
    playersOf (playerProps sk ak st g) =
      ((g.bookmakers.map
          (fun b => mapKeys (groupByPlayer (bookOutcomes sk ak b)))).flatten).foldl
        insKey [] := by
  unfold playerProps
  have hgen : ∀ (bs : List Bookmaker) (props : List PlayerProp),
      playersOf (bs.foldl (processBookmaker sk ak st g.home_team) props) =
        ((bs.map
            (fun b => mapKeys (groupByPlayer (bookOutcomes sk ak b)))).flatten).foldl
          insKey (playersOf props) := by
    intro bs
    induction bs with
    | nil => intro props; rfl
    | cons b rest ih =>
      intro props
      simp only [List.foldl_cons, List.map_cons, List.flatten_cons,
        List.foldl_append]
      rw [ih, playersOf_processBookmaker]
  exact hgen g.bookmakers []

theorem goodProp_pushToFirst {sk home player : String} {entry : PropBookmaker}
    (hentry : ∀ m ∈ entry.markets, TripleDistinct m.outcomes ∧ PSorted m.outcomes)
    {props : List PlayerProp} (h : ∀ q ∈ props, GoodProp sk home q) :
    ∀ q ∈ pushToFirst player entry props, GoodProp sk home q := by
  induction props with
  | nil => intro q hq; cases hq
  | cons p ps ih =>
    intro q hq
    unfold pushToFirst at hq
    split at hq
    · rcases List.mem_cons.1 hq with rfl | hq2
      · obtain ⟨ht, hall, bk, rest, hbk, outs, hmk, hline⟩ :=
          h p (List.mem_cons_self _ _)
        refine ⟨ht, ?_, bk, rest ++ [entry], ?_, outs, hmk, hline⟩
        · intro bk2 hbk2 m hm2
          rcases List.mem_append.1 hbk2 with h3 | h3
          · exact hall bk2 h3 m hm2
          · rw [List.mem_singleton] at h3
            subst h3
            exact hentry m hm2
        · simp [hbk]
      · exact h q (List.mem_cons_of_mem _ hq2)
    · rcases List.mem_cons.1 hq with rfl | hq2
      · exact h q (List.mem_cons_self _ _)
      · exact ih (fun r hr => h r (List.mem_cons_of_mem _ hr)) q hq2

theorem goodProp_addProp {sk st home : String} {b : Bookmaker}
    {props : List PlayerProp} {d : String} {raw : List Outcome}
    (hraw : TripleDistinct raw)
    (h : ∀ q ∈ props, GoodProp sk home q) :
    ∀ q ∈ addProp sk st home b props d raw, GoodProp sk home q := by
  have hentry : ∀ m ∈ (mkEntry sk b (sortByPoint raw)).markets,
      TripleDistinct m.outcomes ∧ PSorted m.outcomes := by
    intro m hm
    unfold mkEntry at hm
    rw [List.mem_singleton] at hm
    subst hm
    exact ⟨tripleDistinct_sortByPoint hraw, psorted_sortByPoint raw⟩
  simp only [addProp]
  split
  · exact goodProp_pushToFirst hentry h
  · intro q hq
    rcases List.mem_append.1 hq with h2 | h2
    · exact h q h2
    · rw [List.mem_singleton] at h2
      subst h2
      refine ⟨rfl, ?_, mkEntry sk b (sortByPoint raw), [], rfl,
        sortByPoint raw, rfl, rfl⟩
      intro bk hbk m hm
      rw [List.mem_singleton] at hbk
      subst hbk
      exact hentry m hm

theorem goodProp_foldl_addProp {sk st home : String} {b : Bookmaker}
    (m : PlayerMap) (hmapTD : MapTD m) {props : List PlayerProp}
    (h : ∀ q ∈ props, GoodProp sk home q) :
    ∀ q ∈ m.foldl (fun acc pr => addProp sk st home b acc pr.fst pr.snd) props,
      GoodProp sk home q := by
  induction m generalizing props with
  | nil => exact h
  | cons pr prs ih =>
    simp only [List.foldl_cons]
    exact ih (fun x hx => hmapTD x (List.mem_cons_of_mem _ hx))
      (goodProp_addProp (hmapTD pr (List.mem_cons_self _ _)) h)

theorem goodProp_processBookmaker {sk ak st home : String}
    {props : List PlayerProp} (b : Bookmaker)
    (h : ∀ q ∈ props, GoodProp sk home q) :
    ∀ q ∈ processBookmaker sk ak st home props b, GoodProp sk home q := by
  simp only [processBookmaker]
  split
  · exact h
  · split
    · exact h
    · exact goodProp_foldl_addProp _ (mapTD_groupByPlayer _) h

theorem goodProp_playerProps (sk ak st : String) (g : GameOdds) :
    ∀ p ∈ playerProps sk ak st g, GoodProp sk g.home_team p := by
  unfold playerProps
  have hgen : ∀ (bs : List Bookmaker) (props : List PlayerProp),
      (∀ q ∈ props, GoodProp sk g.home_team q) →
      ∀ p ∈ bs.foldl (processBookmaker sk ak st g.home_team) props,
        GoodProp sk g.home_team p := by
    intro bs
    induction bs with
    | nil => exact fun _ h => h
    | cons b rest ih =>
      intro props h
      exact ih _ (goodProp_processBookmaker b h)
  exact hgen g.bookmakers [] (by intro q hq; cases hq)

/-! ### Helper lemmas: attributable descriptions -/

theorem descKey?_eq (o : Outcome) :
    (if missingDesc o then none else o.description) = descKey? o := by
  unfold descKey?
  cases h : o.description with
  | none => simp [missingDesc, h]
  | some s =>
    by_cases hs : s = ""
    · simp [missingDesc, h, hs]
    · simp [missingDesc, h, hs]

theorem attributableDescs_eq (sk ak : String) (g : GameOdds) :
    attributableDescs sk ak g =
      (g.bookmakers.map
        (fun b => (bookOutcomes sk ak b).filterMap descKey?)).flatten := by
  unfold attributableDescs
  congr 1
  refine List.map_congr_left ?_
  intro b _
  exact List.filterMap_congr (fun o _ => descKey?_eq o)

/-! ### The claims -/

/-- C1: for every bookmaker and every player, the outcome list attached to
the player prop, and the bookmaker outcome list produced by merging a
standard market with its alternate market, contain no two outcomes sharing
the same `(name, point, description)` triple, assuming each input market
individually contains no such duplicates. -/
theorem claim1_no_duplicate_triples (sk ak st : String) (g : GameOdds)
    (std alt : List Outcome) (hstd : TripleDistinct std)
    (_halt : TripleDistinct alt) :
    TripleDistinct (mergeOutcomes std alt) ∧
    ∀ p ∈ playerProps sk ak st g, ∀ bk ∈ p.bookmakers, ∀ m ∈ bk.markets,
      TripleDistinct m.outcomes := by
  refine ⟨tripleDistinct_mergeOutcomes alt hstd, ?_⟩
  intro p hp bk hbk m hm
  exact ((goodProp_playerProps sk ak st g p hp).2.1 bk hbk m hm).1

/-- Witness for C1 at concrete data. -/
theorem claim1_no_duplicate_triples_witness :
    TripleDistinct demoStd ∧ TripleDistinct demoAlt ∧
      (TripleDistinct (mergeOutcomes demoStd demoAlt) ∧
        ∀ p ∈ playerProps "pts" "pts_alternate" "Points" demoGame,
          ∀ bk ∈ p.bookmakers, ∀ m ∈ bk.markets, TripleDistinct m.outcomes) :=
  ⟨by decide, by decide,
    claim1_no_duplicate_triples "pts" "pts_alternate" "Points" demoGame demoStd
      demoAlt (by decide) (by decide)⟩

/-- C2: every merged outcome list, both the per-bookmaker fetch-time merge
of standard and alternate markets and the per-player outcome list attached
to each prop bookmaker entry, is sorted ascending by `point`. -/
theorem claim2_sorted_by_point (sk ak st : String) (g : GameOdds)
    (std alt : List Outcome) :
    PSorted (mergeOutcomes std alt) ∧
    ∀ p ∈ playerProps sk ak st g, ∀ bk ∈ p.bookmakers, ∀ m ∈ bk.markets,
      PSorted m.outcomes := by
  refine ⟨psorted_mergeOutcomes std alt, ?_⟩
  intro p hp bk hbk m hm
  exact ((goodProp_playerProps sk ak st g p hp).2.1 bk hbk m hm).2

/-- Witness for C2 at concrete data. -/
theorem claim2_sorted_by_point_witness :
    PSorted (mergeOutcomes demoStd demoAlt) ∧
    ∀ p ∈ playerProps "pts" "pts_alternate" "Points" demoGame,
      ∀ bk ∈ p.bookmakers, ∀ m ∈ bk.markets, PSorted m.outcomes :=
  claim2_sorted_by_point "pts" "pts_alternate" "Points" demoGame demoStd demoAlt

/-- C3: the normalizer produces exactly one prop per distinct attributable
`description`; outcomes without a description contribute no prop; a later
bookmaker with data for an already-seen player extends the existing prop
instead of creating a second one (so the player names are duplicate-free
and in bijection with the attributable descriptions). -/
theorem claim3_one_prop_per_player (sk ak st : String) (g : GameOdds) :
    ((playerProps sk ak st g).map PlayerProp.player).Nodup ∧
    (∀ d : String,
      (∃ p ∈ playerProps sk ak st g, p.player = d) ↔
        d ∈ attributableDescs sk ak g) ∧
    (playerProps sk ak st g).length = (attributableDescs sk ak g).toFinset.card := by
  have hmemBig : ∀ d : String,
      d ∈ (g.bookmakers.map
        (fun b => mapKeys (groupByPlayer (bookOutcomes sk ak b)))).flatten ↔
      d ∈ attributableDescs sk ak g := by
    intro d
    rw [attributableDescs_eq]
    simp only [List.mem_flatten, List.mem_map]
    constructor
    · rintro ⟨l, ⟨b, hb, rfl⟩, hd⟩
      rw [mapKeys_groupByPlayer, mem_foldl_insKey] at hd
      rcases hd with h | h
      · cases h
      · exact ⟨_, ⟨b, hb, rfl⟩, h⟩
    · rintro ⟨l, ⟨b, hb, rfl⟩, hd⟩
      refine ⟨_, ⟨b, hb, rfl⟩, ?_⟩
      rw [mapKeys_groupByPlayer, mem_foldl_insKey]
      exact Or.inr hd
  have hplayers := playersOf_playerProps sk ak st g
  refine ⟨?_, ?_, ?_⟩
  · show (playersOf (playerProps sk ak st g)).Nodup
    rw [hplayers]
    exact nodup_foldl_insKey _ List.nodup_nil
  · intro d
    have h1 : (∃ p ∈ playerProps sk ak st g, p.player = d) ↔
        d ∈ playersOf (playerProps sk ak st g) := by
      simp [playersOf, List.mem_map]
    rw [h1, hplayers, mem_foldl_insKey]
    rw [← hmemBig d]
    simp
  · have h2 : (playerProps sk ak st g).length =
        (playersOf (playerProps sk ak st g)).length := by
      simp [playersOf]
    rw [h2, hplayers, length_foldl_insKey]
    congr 1
    ext d
    simp only [List.mem_toFinset]
    exact hmemBig d

/-- Witness for C3 at concrete data. -/
theorem claim3_one_prop_per_player_witness :
    ((playerProps "pts" "pts_alternate" "Points" demoGame).map
        PlayerProp.player).Nodup ∧
    (∀ d : String,
      (∃ p ∈ playerProps "pts" "pts_alternate" "Points" demoGame, p.player = d) ↔
        d ∈ attributableDescs "pts" "pts_alternate" demoGame) ∧
    (playerProps "pts" "pts_alternate" "Points" demoGame).length =
      (attributableDescs "pts" "pts_alternate" demoGame).toFinset.card :=
  claim3_one_prop_per_player "pts" "pts_alternate" "Points" demoGame

/-- C5: every newly created prop carries the home team as its `team`, and
its `line` is the `point` of the first Over outcome of the point-sorted
outcome list of its first bookmaker entry, or 0 when that entry has no
Over outcome. -/
theorem claim5_team_and_line (sk ak st : String) (g : GameOdds) :
    ∀ p ∈ playerProps sk ak st g,
      p.team = g.home_team ∧
      ∃ bk rest, p.bookmakers = bk :: rest ∧
        ∃ outs, bk.markets = [{ key := sk, outcomes := outs }] ∧
          PSorted outs ∧
          p.line = jsPointOrZero
            ((outs.find? (fun o => o.name == "Over")).map Outcome.point) := by
  intro p hp
  obtain ⟨ht, hall, bk, rest, hbk, outs, hmk, hline⟩ :=
    goodProp_playerProps sk ak st g p hp
  refine ⟨ht, bk, rest, hbk, outs, hmk, ?_, hline⟩
  have hmem : ({ key := sk, outcomes := outs } : Market) ∈ bk.markets := by
    rw [hmk]
    exact List.mem_singleton.2 rfl
  have hbkmem : bk ∈ p.bookmakers := by
    rw [hbk]
    exact List.mem_cons_self _ _
  exact (hall bk hbkmem _ hmem).2

/-- Witness for C5 at concrete data. -/
theorem claim5_team_and_line_witness :
    demoResultProp ∈ playerProps "pts" "pts_alternate" "Points" demoGame ∧
    (demoResultProp.team = demoGame.home_team ∧
      ∃ bk rest, demoResultProp.bookmakers = bk :: rest ∧
        ∃ outs, bk.markets = [{ key := "pts", outcomes := outs }] ∧
          PSorted outs ∧
          demoResultProp.line = jsPointOrZero
            ((outs.find? (fun o => o.name == "Over")).map Outcome.point)) :=
  ⟨by decide, claim5_team_and_line "pts" "pts_alternate" "Points" demoGame
    demoResultProp (by decide)⟩

theorem combineOpt_none_left (y : Option ℤ) : combineOpt none y = y := rfl

theorem combineOpt_none_right (x : Option ℤ) : combineOpt x none = x := by
  cases x <;> rfl

theorem combineOpt_assoc (a b c : Option ℤ) :
    combineOpt (combineOpt a b) c = combineOpt a (combineOpt b c) := by
  cases a <;> cases b <;> cases c <;> simp [combineOpt, max_assoc]

theorem listMax?_append (l1 l2 : List ℤ) :
    listMax? (l1 ++ l2) = combineOpt (listMax? l1) (listMax? l2) := by
  induction l1 with
  | nil =>
    rw [List.nil_append]
    exact (combineOpt_none_left _).symm
  | cons x xs ih =>
    simp only [List.cons_append, listMax?, List.append_eq]
    rw [ih]
    cases hxs : listMax? xs <;> cases hl2 : listMax? l2 <;>
      simp [combineOpt, max_assoc]

theorem le_listMax? {x : ℤ} {l : List ℤ} (h : x ∈ l) :
    ∃ v, listMax? l = some v ∧ x ≤ v := by
  induction l with
  | nil => cases h
  | cons y ys ih =>
    rcases List.mem_cons.1 h with rfl | h2
    · cases hys : listMax? ys with
      | none => exact ⟨x, by simp [listMax?, hys], le_refl x⟩
      | some m => exact ⟨max x m, by simp [listMax?, hys], le_max_left x m⟩
    · rcases ih h2 with ⟨v, hv, hxv⟩
      exact ⟨max y v, by simp [listMax?, hv], le_trans hxv (le_max_right y v)⟩

theorem listMax?_mem {l : List ℤ} {v : ℤ} (h : listMax? l = some v) : v ∈ l := by
  induction l generalizing v with
  | nil => cases h
  | cons y ys ih =>
    simp only [listMax?] at h
    cases hys : listMax? ys with
    | none =>
      rw [hys] at h
      cases h
      exact List.mem_cons_self _ _
    | some m =>
      rw [hys] at h
      cases h
      rcases max_choice y m with h2 | h2
      · rw [h2]; exact List.mem_cons_self _ _
      · rw [h2]; exact List.mem_cons_of_mem _ (ih hys)

theorem listMax?_of_all_eq {l : List ℤ} {c : ℤ} (hne : l ≠ [])
    (h : ∀ x ∈ l, x = c) : listMax? l = some c := by
  induction l with
  | nil => exact absurd rfl hne
  | cons y ys ih =>
    have hy : y = c := h y (List.mem_cons_self _ _)
    cases ys with
    | nil => simp [listMax?, hy]
    | cons z zs =>
      have hys2 : listMax? (z :: zs) = some c :=
        ih (List.cons_ne_nil _ _) (fun x hx => h x (List.mem_cons_of_mem _ hx))
      have hstep : listMax? (y :: z :: zs) =
          match listMax? (z :: zs) with
          | none => some y
          | some m => some (max y m) := rfl
      rw [hstep, hys2, hy]
      simp

theorem bk_listMax {marketKey side : String} {line : ℚ} {bk : PropBookmaker}
    (h : ∀ m ∈ (bk.markets.find? (fun mm => mm.key == marketKey)).toList,
      ∀ o1 ∈ m.outcomes, ∀ o2 ∈ m.outcomes,
        o1.name = side → o2.name = side → o1.point = line → o2.point = line →
          o1.price = o2.price) :
    listMax? (bkLinePrices marketKey side line bk) =
      (foundAtLine marketKey side line bk).map Outcome.price := by
  unfold bkLinePrices foundAtLine
  cases hf : bk.markets.find? (fun mm => mm.key == marketKey) with
  | none => rfl
  | some m =>
    dsimp only
    have hm := h m (by simp [hf])
    cases hfo : m.outcomes.find? (fun o => o.name == side && o.point == line) with
    | none =>
      have hnil : m.outcomes.filter (fun o => o.name == side && o.point == line)
          = [] := by
        rw [List.filter_eq_nil_iff]
        intro o ho
        exact List.find?_eq_none.1 hfo o ho
      rw [hnil]
      rfl
    | some o =>
      have ho : o ∈ m.outcomes := List.mem_of_find?_eq_some hfo
      have hpo := List.find?_some hfo
      rw [Bool.and_eq_true, beq_iff_eq, beq_iff_eq] at hpo
      have hmemf : o ∈ m.outcomes.filter (fun o => o.name == side && o.point == line) := by
        rw [List.mem_filter]
        exact ⟨ho, by simp [hpo.1, hpo.2]⟩
      refine listMax?_of_all_eq ?_ ?_
      · intro hc
        have hmm : o.price ∈ (m.outcomes.filter
            (fun o => o.name == side && o.point == line)).map Outcome.price :=
          List.mem_map_of_mem _ hmemf
        rw [hc] at hmm
        cases hmm
      · intro x hx
        rcases List.mem_map.1 hx with ⟨o2, ho2f, rfl⟩
        rw [List.mem_filter, Bool.and_eq_true, beq_iff_eq, beq_iff_eq] at ho2f
        exact hm o2 ho2f.1 o ho ho2f.2.1 hpo.1 ho2f.2.2 hpo.2

theorem bestPrice_foldl (marketKey side : String) (line : ℚ)
    (bks : List PropBookmaker) (acc : Option ℤ)
    (h : ∀ bk ∈ bks,
      ∀ m ∈ (bk.markets.find? (fun mm => mm.key == marketKey)).toList,
        ∀ o1 ∈ m.outcomes, ∀ o2 ∈ m.outcomes,
          o1.name = side → o2.name = side → o1.point = line → o2.point = line →
            o1.price = o2.price) :
    bks.foldl
        (fun best bk =>
          match foundAtLine marketKey side line bk with
          | none => best
          | some o =>
            match best with
            | none => some o.price
            | some bb => some (max bb o.price)) acc =
      combineOpt acc
        (listMax? ((bks.map (bkLinePrices marketKey side line)).flatten)) := by
  induction bks generalizing acc with
  | nil => simp [listMax?, combineOpt_none_right]
  | cons bk bks ih =>
    simp only [List.foldl_cons, List.map_cons, List.flatten_cons]
    rw [listMax?_append, ih _ (fun b hb => h b (List.mem_cons_of_mem _ hb)),
      ← combineOpt_assoc]
    congr 1
    rw [bk_listMax (h bk (List.mem_cons_self _ _))]
    cases hfo : foundAtLine marketKey side line bk with
    | none => exact (combineOpt_none_right acc).symm
    | some o => cases acc <;> rfl

theorem linePrices_eq_flatten (marketKey side : String) (prop : PlayerProp)
    (line : ℚ) :
    linePrices marketKey side prop line =
      (prop.bookmakers.map (bkLinePrices marketKey side line)).flatten := by
  unfold linePrices bkLinePrices
  induction prop.bookmakers with
  | nil => rfl
  | cons bk bks ih => simp only [List.foldr_cons, List.map_cons,
      List.flatten_cons, ih]

/-- C4: for every prop, line and side, the best price computed by the table
view equals the maximum price over all outcomes of that side at that line
across the attached bookmakers, and in particular is never smaller than any
individual bookmaker price for that side and line. -/
theorem claim4_best_price_is_max (marketKey side : String) (prop : PlayerProp)
    (line : ℚ) (h : UniqueSidePrices marketKey side line prop) :
    bestPriceForLine marketKey side prop line =
      listMax? (linePrices marketKey side prop line) ∧
    (∀ p, bestPriceForLine marketKey side prop line = some p →
      p ∈ linePrices marketKey side prop line) ∧
    ∀ c ∈ linePrices marketKey side prop line,
      ∃ p, bestPriceForLine marketKey side prop line = some p ∧ c ≤ p := by
  have heq : bestPriceForLine marketKey side prop line =
      listMax? (linePrices marketKey side prop line) := by
    unfold bestPriceForLine
    rw [bestPrice_foldl marketKey side line prop.bookmakers none h,
      combineOpt_none_left, linePrices_eq_flatten]
  refine ⟨heq, ?_, ?_⟩
  · intro p hp
    rw [heq] at hp
    exact listMax?_mem hp
  · intro c hc
    rcases le_listMax? hc with ⟨v, hv, hcv⟩
    exact ⟨v, by rw [heq, hv], hcv⟩

/-- Witness for C4 at concrete data. -/
theorem claim4_best_price_is_max_witness :
    UniqueSidePrices "pts" "Over" 25 demoProp ∧
      (bestPriceForLine "pts" "Over" demoProp 25 =
        listMax? (linePrices "pts" "Over" demoProp 25) ∧
      (∀ p, bestPriceForLine "pts" "Over" demoProp 25 = some p →
        p ∈ linePrices "pts" "Over" demoProp 25) ∧
      ∀ c ∈ linePrices "pts" "Over" demoProp 25,
        ∃ p, bestPriceForLine "pts" "Over" demoProp 25 = some p ∧ c ≤ p) :=
  ⟨by decide, claim4_best_price_is_max "pts" "Over" demoProp 25 (by decide)⟩

/-! ### Helper lemmas: the two branches of `combineBookmaker` (C6, C10) -/

theorem combineBookmaker_markets_promo {b : Bookmaker} (h1 : stdOf b = [])
    (h2 : altOf b ≠ []) :
    (combineBookmaker b).markets =
      (altOf b).map (fun m => { m with key := stripAlt m.key }) := by
  unfold combineBookmaker
  have hc : ((stdOf b).isEmpty && !(altOf b).isEmpty) = true := by
    rw [Bool.and_eq_true, Bool.not_eq_true']
    refine ⟨List.isEmpty_iff.2 h1, ?_⟩
    obtain ⟨a, as, ha⟩ := List.exists_cons_of_ne_nil h2
    rw [ha]
    rfl
  rw [if_pos hc]

theorem combineBookmaker_markets_merge {b : Bookmaker} (h1 : stdOf b ≠ []) :
    (combineBookmaker b).markets =
      (stdOf b).map (mergeStandardMarket (altOf b)) := by
  unfold combineBookmaker
  have hc : ((stdOf b).isEmpty && !(altOf b).isEmpty) = false := by
    obtain ⟨s, ss, hs⟩ := List.exists_cons_of_ne_nil h1
    rw [hs]
    rfl
  rw [if_neg (by simp [hc])]

theorem mergeStandardMarket_key (alts : List Market) (s : Market) :
    (mergeStandardMarket alts s).key = s.key := by
  unfold mergeStandardMarket
  cases alts.find? (fun m => stripAlt m.key == s.key) <;> rfl

theorem mergeStandardMarket_of_none {alts : List Market} {s : Market}
    (h : alts.find? (fun m => stripAlt m.key == s.key) = none) :
    mergeStandardMarket alts s = s := by
  unfold mergeStandardMarket
  rw [h]

theorem mergeStandardMarket_of_some {alts : List Market} {s a : Market}
    (h : alts.find? (fun m => stripAlt m.key == s.key) = some a) :
    mergeStandardMarket alts s =
      { s with outcomes := mergeOutcomes s.outcomes a.outcomes } := by
  unfold mergeStandardMarket
  rw [h]

/-- Counterexample to C6 as stated: promoting the lone alternate market of
`oddKeyBook` rewrites its key to `x_y` (first occurrence of the substring
`_alternate` removed), while removal of the `_alternate` suffix would leave
`x_alternate_y` unchanged, because the key does not end with the suffix. -/
theorem claim6_counterexample :
    (combineBookmaker oddKeyBook).markets.map Market.key = ["x_y"] ∧
    stripAltSuffix "x_alternate_y" = "x_alternate_y" ∧
    ("x_y" : String) ≠ "x_alternate_y" := by
  refine ⟨by decide, by decide, by decide⟩

/-- C6 (amended): when alternate lines are fetched, per bookmaker: if there
is no standard market but at least one alternate market, each alternate
market is promoted to standard by removing the first occurrence of the
substring `_alternate` from its key, with its outcomes unchanged; otherwise
the merged markets correspond one to one to the standard markets, keep
their keys, are left unchanged when no alternate matches, and otherwise
hold the point-sorted merge whose triples are exactly those of the standard
and matching alternate outcomes, each merged outcome coming from one of the
two. -/
theorem claim6_merge_behavior (b : Bookmaker) :
    (stdOf b = [] → altOf b ≠ [] →
      (combineBookmaker b).markets =
        (altOf b).map (fun m => { m with key := stripAlt m.key })) ∧
    (stdOf b ≠ [] →
      List.Forall₂ (fun s m2 =>
        m2.key = s.key ∧
        ((altOf b).find? (fun m => stripAlt m.key == s.key) = none → m2 = s) ∧
        ∀ a, (altOf b).find? (fun m => stripAlt m.key == s.key) = some a →
          PSorted m2.outcomes ∧
          (∀ o ∈ m2.outcomes, o ∈ s.outcomes ∨ o ∈ a.outcomes) ∧
          ∀ o : Outcome,
            TripleIn o m2.outcomes ↔ TripleIn o (s.outcomes ++ a.outcomes))
        (stdOf b) (combineBookmaker b).markets) := by
  constructor
  · exact fun h1 h2 => combineBookmaker_markets_promo h1 h2
  · intro h1
    rw [combineBookmaker_markets_merge h1]
    rw [List.forall₂_map_right_iff]
    rw [List.forall₂_same]
    intro s _
    refine ⟨mergeStandardMarket_key _ s, ?_, ?_⟩
    · exact fun hf => mergeStandardMarket_of_none hf
    · intro a hf
      rw [mergeStandardMarket_of_some hf]
      exact ⟨psorted_mergeOutcomes _ _,
        fun o ho => mem_mergeOutcomes ho,
        fun o => tripleIn_mergeOutcomes o _ _⟩

/-- Witness for C6 (amended) at concrete data: `demoBook` has a standard
market, and `oddKeyBook` exercises the promotion branch. -/
theorem claim6_merge_behavior_witness :
    stdOf demoBook ≠ [] ∧ stdOf oddKeyBook = [] ∧ altOf oddKeyBook ≠ [] ∧
    List.Forall₂ (fun s m2 =>
        m2.key = s.key ∧
        ((altOf demoBook).find? (fun m => stripAlt m.key == s.key) = none →
          m2 = s) ∧
        ∀ a, (altOf demoBook).find? (fun m => stripAlt m.key == s.key) = some a →
          PSorted m2.outcomes ∧
          (∀ o ∈ m2.outcomes, o ∈ s.outcomes ∨ o ∈ a.outcomes) ∧
          ∀ o : Outcome,
            TripleIn o m2.outcomes ↔ TripleIn o (s.outcomes ++ a.outcomes))
      (stdOf demoBook) (combineBookmaker demoBook).markets ∧
    (combineBookmaker oddKeyBook).markets =
      (altOf oddKeyBook).map (fun m => { m with key := stripAlt m.key }) :=
  ⟨by decide, by decide, by decide,
    (claim6_merge_behavior demoBook).2 (by decide),
    (claim6_merge_behavior oddKeyBook).1 (by decide) (by decide)⟩

/-- C10: when alternate lines are fetched and a bookmaker has at least one
standard market, an alternate market whose stripped key matches no standard
key is silently discarded: none of its outcomes (unless the same outcome
value also occurs in a standard market or in an alternate market that does
match one) appears in any combined market of that bookmaker. -/
theorem claim10_unmatched_alternate_discarded (b : Bookmaker) (a : Market)
    (o : Outcome) (hstd : stdOf b ≠ []) (_ha : a ∈ altOf b)
    (_ho : o ∈ a.outcomes)
    (_hnomatch : ∀ s ∈ stdOf b, stripAlt a.key ≠ s.key)
    (hnostd : ∀ s ∈ stdOf b, o ∉ s.outcomes)
    (hnoalt : ∀ a2 ∈ altOf b, (∃ s ∈ stdOf b, stripAlt a2.key = s.key) →
      o ∉ a2.outcomes) :
    ∀ m ∈ (combineBookmaker b).markets, o ∉ m.outcomes := by
  intro m hm
  rw [combineBookmaker_markets_merge hstd] at hm
  rcases List.mem_map.1 hm with ⟨s, hs, rfl⟩
  cases hf : (altOf b).find? (fun mm => stripAlt mm.key == s.key) with
  | none =>
    rw [mergeStandardMarket_of_none hf]
    exact hnostd s hs
  | some a2 =>
    rw [mergeStandardMarket_of_some hf]
    intro hmem
    rcases mem_mergeOutcomes hmem with h | h
    · exact hnostd s hs h
    · have ha2 : a2 ∈ altOf b := List.mem_of_find?_eq_some hf
      have hk : stripAlt a2.key = s.key := by
        have hp := List.find?_some hf
        rwa [beq_iff_eq] at hp
      exact hnoalt a2 ha2 ⟨s, hs, hk⟩ h

/-- Witness for C10 at concrete data. -/
theorem claim10_unmatched_alternate_discarded_witness :
    stdOf unmatchedBook ≠ [] ∧ strayAlt ∈ altOf unmatchedBook ∧
    demoAltOver ∈ strayAlt.outcomes ∧
    (∀ s ∈ stdOf unmatchedBook, stripAlt strayAlt.key ≠ s.key) ∧
    (∀ s ∈ stdOf unmatchedBook, demoAltOver ∉ s.outcomes) ∧
    (∀ a2 ∈ altOf unmatchedBook,
      (∃ s ∈ stdOf unmatchedBook, stripAlt a2.key = s.key) →
        demoAltOver ∉ a2.outcomes) ∧
    ∀ m ∈ (combineBookmaker unmatchedBook).markets,
      demoAltOver ∉ m.outcomes :=
  ⟨by decide, by decide, by decide, by decide, by decide, by decide,
    claim10_unmatched_alternate_discarded unmatchedBook strayAlt demoAltOver
      (by decide) (by decide) (by decide) (by decide) (by decide) (by decide)⟩

/-! ### Helper lemmas: the search and sort pipeline (C7, C8) -/

theorem jsToLower_empty : jsToLower "" = "" := rfl

theorem data_eq_nil_iff (s : String) : s.data = [] ↔ s = "" := by
  constructor
  · intro h
    cases s with
    | mk d =>
      simp only at h
      rw [h]
  · intro h
    rw [h]

theorem jsIncludes_empty_left {pat : String} (h : pat ≠ "") :
    jsIncludes "" pat = false := by
  unfold jsIncludes
  have hd : pat.data ≠ [] := fun hc => h ((data_eq_nil_iff pat).1 hc)
  cases hp : pat.data with
  | nil => exact absurd hp hd
  | cons c cs => rfl

theorem jsToLower_ne_empty {q : String} (h : q ≠ "") : jsToLower q ≠ "" := by
  intro hc
  apply h
  apply (data_eq_nil_iff q).1
  have hdata : q.data.map Char.toLower = [] := by
    have h2 : (jsToLower q).data = q.data.map Char.toLower := rfl
    rw [hc] at h2
    exact h2.symm
  exact List.map_eq_nil_iff.1 hdata

theorem matchesQuery_iff {q : String} (hq : q ≠ "") (p : PlayerProp) :
    matchesQuery (jsToLower q) p = true ↔ QueryMatches q p := by
  unfold matchesQuery QueryMatches
  by_cases ht : p.team = ""
  · have h0 : jsIncludes (jsToLower p.team) (jsToLower q) = false := by
      rw [ht, jsToLower_empty]
      exact jsIncludes_empty_left (jsToLower_ne_empty hq)
    have h1 : (p.team != "") = false := by simp [ht]
    rw [h1]
    simp [h0]
  · have h1 : (p.team != "") = true := by simp [ht]
    rw [h1]
    simp

theorem mem_filteredProps (props : List PlayerProp) (q : String) (sb : SortMode)
    (mk : String) (p : PlayerProp) :
    p ∈ filteredProps props q sb mk ↔
      p ∈ (if q != "" then props.filter (matchesQuery (jsToLower q))
           else props) := by
  unfold filteredProps
  cases sb <;> simp

/-- C7: the filter keeps exactly the props whose player name or team name
contains the query as a case-insensitive substring; a query matching no
prop yields the empty list; the empty query leaves membership unchanged. -/
theorem claim7_search_filter (props : List PlayerProp) (q : String)
    (sb : SortMode) (mk : String) :
    (∀ p, p ∈ filteredProps props q sb mk ↔
      p ∈ props ∧ (q = "" ∨ QueryMatches q p)) ∧
    (q ≠ "" → (∀ p ∈ props, ¬ QueryMatches q p) →
      filteredProps props q sb mk = []) ∧
    (q = "" → ∀ p, p ∈ filteredProps props q sb mk ↔ p ∈ props) := by
  have hmem : ∀ p, p ∈ filteredProps props q sb mk ↔
      p ∈ props ∧ (q = "" ∨ QueryMatches q p) := by
    intro p
    rw [mem_filteredProps]
    by_cases hq : q = ""
    · subst hq
      simp
    · have hne : (q != "") = true := by simp [hq]
      rw [hne]
      simp only [if_true]
      rw [List.mem_filter]
      simp [matchesQuery_iff hq, hq]
  refine ⟨hmem, ?_, ?_⟩
  · intro hq hnone
    rw [List.eq_nil_iff_forall_not_mem]
    intro p hp
    rcases (hmem p).1 hp with ⟨hmemp, hq2 | hq2⟩
    · exact hq hq2
    · exact hnone p hmemp hq2
  · intro hq p
    rw [hmem p]
    simp [hq]

/-- Witness for C7 at concrete data. -/
theorem claim7_search_filter_witness :
    (∀ p, p ∈ filteredProps [demoProp] "zz" SortMode.name "pts" ↔
      p ∈ [demoProp] ∧ (("zz" : String) = "" ∨ QueryMatches "zz" p)) ∧
    (("zz" : String) ≠ "" →
      (∀ p ∈ [demoProp], ¬ QueryMatches "zz" p) →
        filteredProps [demoProp] "zz" SortMode.name "pts" = []) ∧
    (("zz" : String) = "" →
      ∀ p, p ∈ filteredProps [demoProp] "zz" SortMode.name "pts" ↔
        p ∈ [demoProp]) :=
  claim7_search_filter [demoProp] "zz" SortMode.name "pts"

/-- C8: in best-odds mode the filtered list is sorted by best Over price in
descending raw numeric order with a missing best price treated as 0, and in
name mode it is sorted lexicographically by player name. -/
theorem claim8_sort_modes (props : List PlayerProp) (q mk : String) :
    List.Sorted (fun a b : PlayerProp =>
        bestOverKey mk b ≤ bestOverKey mk a)
      (filteredProps props q SortMode.bestOdds mk) ∧
    List.Sorted (fun a b : PlayerProp => a.player ≤ b.player)
      (filteredProps props q SortMode.name mk) := by
  constructor
  · simp only [filteredProps]
    refine List.Pairwise.imp ?_
      (List.sorted_mergeSort
        (fun a b c hab hbc => ?_) (fun a b => ?_) _)
    · intro a b hab
      simpa using hab
    · simp only [decide_eq_true_eq] at *
      exact le_trans hbc hab
    · simp only [Bool.or_eq_true, decide_eq_true_eq]
      exact le_total _ _
  · simp only [filteredProps]
    refine List.Pairwise.imp ?_
      (List.sorted_mergeSort
        (fun a b c hab hbc => ?_) (fun a b => ?_) _)
    · intro a b hab
      simpa using hab
    · simp only [decide_eq_true_eq] at *
      exact le_trans hab hbc
    · simp only [Bool.or_eq_true, decide_eq_true_eq]
      exact le_total _ _

/-- Witness for C8 at concrete data. -/
theorem claim8_sort_modes_witness :
    List.Sorted (fun a b : PlayerProp =>
        bestOverKey "pts" b ≤ bestOverKey "pts" a)
      (filteredProps [demoProp] "" SortMode.bestOdds "pts") ∧
    List.Sorted (fun a b : PlayerProp => a.player ≤ b.player)
      (filteredProps [demoProp] "" SortMode.name "pts") :=
  claim8_sort_modes [demoProp] "" "pts"

/-! ### The event selector (C9) -/

/-- C9: on load the events are sorted ascending by commence time and the
auto-selected event is one of the events with the minimum commence time. -/
theorem claim9_event_autoselect (l : List Event) (h : l ≠ []) :
    List.Sorted (fun a b : Event => a.commence_time ≤ b.commence_time)
      (sortEvents l) ∧
    ∃ e, autoSelectedEvent l = some e ∧ e ∈ l ∧
      ∀ e2 ∈ l, e.commence_time ≤ e2.commence_time := by
  have hsorted : List.Sorted
      (fun a b : Event => a.commence_time ≤ b.commence_time) (sortEvents l) := by
    unfold sortEvents
    refine List.Pairwise.imp ?_
      (List.sorted_mergeSort
        (fun a b c hab hbc => ?_) (fun a b => ?_) _)
    · intro a b hab
      simpa using hab
    · simp only [decide_eq_true_eq] at *
      exact le_trans hab hbc
    · simp only [Bool.or_eq_true, decide_eq_true_eq]
      exact le_total _ _
  have hperm : List.Perm (sortEvents l) l := List.mergeSort_perm l _
  have hne : sortEvents l ≠ [] := by
    intro hc
    apply h
    have hlen := hperm.length_eq
    rw [hc] at hlen
    exact List.length_eq_zero.1 hlen.symm
  obtain ⟨e, es, he⟩ := List.exists_cons_of_ne_nil hne
  refine ⟨hsorted, e, ?_, ?_, ?_⟩
  · unfold autoSelectedEvent
    rw [he]
    rfl
  · refine hperm.mem_iff.1 ?_
    rw [he]
    exact List.mem_cons_self _ _
  · intro e2 he2
    have h2 : e2 ∈ sortEvents l := hperm.mem_iff.2 he2
    rw [he] at h2
    rcases List.mem_cons.1 h2 with rfl | h3
    · exact le_refl _
    · have hp := hsorted
      rw [he] at hp
      exact (List.pairwise_cons.1 hp).1 e2 h3

/-- Witness for C9 at concrete data. -/
theorem claim9_event_autoselect_witness :
    ([demoEventA, demoEventB] : List Event) ≠ [] ∧
    (List.Sorted (fun a b : Event => a.commence_time ≤ b.commence_time)
        (sortEvents [demoEventA, demoEventB]) ∧
      ∃ e, autoSelectedEvent [demoEventA, demoEventB] = some e ∧
        e ∈ [demoEventA, demoEventB] ∧
        ∀ e2 ∈ [demoEventA, demoEventB],
          e.commence_time ≤ e2.commence_time) :=
  ⟨by decide, claim9_event_autoselect [demoEventA, demoEventB] (by decide)⟩
